import Mathlib

/-
Verification development for the Croply video-analysis core
(backend/python/functions/yolo/detect_video_full_ai_json_with_vad.py and
 backend/python/functions/yolo/detect_video_full_ai_json.py).

Embedding conventions:
* Python floats are embedded as exact rationals (ℚ); quantities that are
  genuinely irrational in the source (math.hypot / math.sqrt values) are
  embedded over ℝ in the scorer/aggregator section.
* The tracker only ever USES Euclidean distances in order comparisons
  (`d < min_dist`, `min_dist > MATCH_DISTANCE_THRESHOLD`).  Since
  sqrt is strictly monotone on nonnegative reals, `hypot a b < hypot c d`
  iff `a^2+b^2 < c^2+d^2`, and `hypot a b > T` iff `a^2+b^2 > T^2` for
  `T ≥ 0`.  The executable tracker embedding therefore carries squared
  distances and compares against the squared threshold; this is an exact
  (not approximate) rendering of the source comparisons.
* Python dicts preserve insertion order; they are embedded as
  association lists with in-place update (`setA`), first-match lookup
  (`getA`) and key removal (`eraseA`).
* `int(x)` in Python truncates toward zero; embedded as `pyInt`.
-/

namespace Croply

/-- Python `int` applied to a rational: truncation toward zero.
`Int.tdiv` is T-division and `q.den` is positive, so `q.num.tdiv q.den`
truncates toward zero exactly like Python `int()`. -/
def pyInt (q : ℚ) : ℤ := q.num.tdiv q.den

/-! ## Association-list operations modelling Python dicts -/

/-- Dict read `l[k]` / `l.get(k)`: value of the first entry with key `k`. -/
def getA {α : Type} : List (ℕ × α) → ℕ → Option α
  | [], _ => none
  | (k₀, v) :: t, k => if k₀ = k then some v else getA t k

/-- Dict update `l[k] = v`: replace in place if the key is present
(keeping its position), else append at the end, as Python dicts do. -/
def setA {α : Type} : List (ℕ × α) → ℕ → α → List (ℕ × α)
  | [], k, v => [(k, v)]
  | (k₀, v₀) :: t, k, v =>
      if k₀ = k then (k, v) :: t else (k₀, v₀) :: setA t k v

/-- Dict removal `l.pop(k, None)`: drop the first entry with key `k`. -/
def eraseA {α : Type} : List (ℕ × α) → ℕ → List (ℕ × α)
  | [], _ => []
  | (k₀, v₀) :: t, k =>
      if k₀ = k then t else (k₀, v₀) :: eraseA t k

/-! ## Data model -/

/-- One detection handed to the tracker for one frame: class id,
confidence and the (x1,y1,x2,y2) pixel bounding box
(`box.cls`, `box.conf`, `box.xyxy` in the source). -/
structure Det where
  cls : ℕ
  conf : ℚ
  x1 : ℚ
  y1 : ℚ
  x2 : ℚ
  y2 : ℚ
deriving DecidableEq, Repr

/-- Detection center x: `cx = (x1 + x2) / 2` (source line 171). -/
def Det.cx (d : Det) : ℚ := (d.x1 + d.x2) / 2

/-- Detection center y: `cy = (y1 + y2) / 2` (source line 172). -/
def Det.cy (d : Det) : ℚ := (d.y1 + d.y2) / 2

/-- Squared Euclidean distance between two points; the square of the
`math.hypot` the source computes. -/
def dist2 (a b : ℚ × ℚ) : ℚ := (a.1 - b.1) ^ 2 + (a.2 - b.2) ^ 2

/-- `MATCH_DISTANCE_THRESHOLD = max(width, height) * 0.12`
(detect_video_full_ai_json_with_vad.py line 93). -/
def MATCH_DISTANCE_THRESHOLD (width height : ℕ) : ℚ :=
  (max width height : ℕ) * (12 / 100)

/-- Tracker state carried between frames: the three id-keyed dicts
`previous_centers`, `missing_counts`, `stay_duration` plus `next_id`
(source lines 86-89). -/
structure TrackState where
  previousCenters : List (ℕ × ℚ × ℚ)
  missingCounts : List (ℕ × ℕ)
  stayDuration : List (ℕ × ℕ)
  nextId : ℕ
deriving DecidableEq, Repr

/-- Initial tracker state: empty dicts, `next_id = 1` (source lines 86-89). -/
def initState : TrackState := ⟨[], [], [], 1⟩

/-- The tracker-level part of one emitted Frame Object Record
(the fields of the `obj` dict at source lines 206-221 that do not
involve square roots; motion magnitude / importance are treated in the
real-valued scorer section). -/
structure ObjRec where
  id : ℕ
  classId : ℕ
  confidence : ℚ
  cx : ℚ
  cy : ℚ
  vx : ℚ
  vy : ℚ
  stayDurationFrames : ℕ
deriving DecidableEq, Repr

/-- The tracker-level part of one Frame Record: frame index and
the ordered object list (source lines 144-150, 225). -/
structure FrameRec where
  frame : ℕ
  objects : List ObjRec
deriving DecidableEq, Repr

/-! ## Track Registry: per-detection matching (source lines 178-192) -/

/-- One iteration of the `for pid, prev in previous_centers.items()`
arg-min loop (source lines 182-186): the running best `(obj_id, min_dist)`
is replaced only when `d < min_dist`; distances carried squared (see
header), `none` plays the role of `obj_id is None / min_dist = inf`. -/
def nearStep (c : ℚ × ℚ) (best : Option (ℕ × ℚ)) (p : ℕ × ℚ × ℚ) :
    Option (ℕ × ℚ) :=
  let d2 := dist2 c (p.2.1, p.2.2)
  match best with
  | none => some (p.1, d2)
  | some (pid, md) => if d2 < md then some (p.1, d2) else some (pid, md)

/-- The whole arg-min loop of source lines 179-186. `none` iff the
registry is empty. -/
def findNearest (c : ℚ × ℚ) (pcs : List (ℕ × ℚ × ℚ)) : Option (ℕ × ℚ) :=
  pcs.foldl (nearStep c) none

/-- Resolution of one detection against the live registry
(source lines 178-188): `some pid` when the nearest live track `pid`
is within the threshold, `none` when a new track must be allocated
(`obj_id is None or min_dist > MATCH_DISTANCE_THRESHOLD`). -/
def matchDetection (pcs : List (ℕ × ℚ × ℚ)) (thresh : ℚ) (c : ℚ × ℚ) :
    Option ℕ :=
  match findNearest c pcs with
  | none => none
  | some (pid, md2) => if thresh ^ 2 < md2 then none else some pid

/-- Accumulator of the per-frame detection loop: the mutated dicts and
counter plus the appended `objects`, `detected_centers` lists; `issued`
is a ghost list recording ids handed out at the allocation site
(`obj_id = next_id; next_id += 1`, source lines 189-190). -/
structure FrameAcc where
  missingCounts : List (ℕ × ℕ)
  stayDuration : List (ℕ × ℕ)
  nextId : ℕ
  objs : List ObjRec
  centers : List (ℕ × ℚ × ℚ)
  issued : List ℕ
deriving Repr

/-- Body of the `for box in results.boxes` loop
(source lines 165-227) for a single detection.  Matching always reads
`pcs`, the frame-start snapshot of `previous_centers`, which the source
only updates after the loop (lines 238-239). -/
def detStep (pcs : List (ℕ × ℚ × ℚ)) (thresh : ℚ) (a : FrameAcc) (d : Det) :
    FrameAcc :=
  let cx := d.cx
  let cy := d.cy
  -- lines 178-192: match or allocate
  let r := matchDetection pcs thresh (cx, cy)
  let objId := match r with
    | some pid => pid
    | none => a.nextId
  let missing1 := match r with
    | some _ => a.missingCounts
    | none => setA a.missingCounts a.nextId 0
  let stay1 := match r with
    | some _ => a.stayDuration
    | none => setA a.stayDuration a.nextId 0
  let nextId1 := match r with
    | some _ => a.nextId
    | none => a.nextId + 1
  let issued1 := match r with
    | some _ => a.issued
    | none => a.issued ++ [a.nextId]
  -- lines 195-201: motion block (`if obj_id in previous_centers`);
  -- the dict accesses `stay_duration[obj_id] += 1` presuppose the key is
  -- present, which holds for reachable states; `getD 0` totalises them.
  let mv := match getA pcs objId with
    | some pc => ((cx - pc.1, cy - pc.2),
        setA stay1 objId ((getA stay1 objId).getD 0 + 1))
    | none => ((0, 0), setA stay1 objId 1)
  let obj : ObjRec :=
    ⟨objId, d.cls, d.conf, cx, cy, mv.1.1, mv.1.2,
      (getA mv.2 objId).getD 0⟩
  ⟨missing1, mv.2, nextId1, a.objs ++ [obj],
    a.centers ++ [(objId, cx, cy)], issued1⟩

/-- Accumulator of the tracker-update loop (source lines 230-236). -/
structure EvictAcc where
  previousCenters : List (ℕ × ℚ × ℚ)
  missingCounts : List (ℕ × ℕ)
  stayDuration : List (ℕ × ℕ)
deriving Repr

/-- Body of `for pid in list(previous_centers.keys())`
(source lines 230-236): tracks not seen this frame get
`missing_counts[pid] += 1` and are popped from all three dicts once
`missing_counts[pid] > fps * 2`. -/
def evictStep (fps : ℚ) (seen : List ℕ) (e : EvictAcc) (pid : ℕ) : EvictAcc :=
  if pid ∈ seen then e
  else
    let m := (getA e.missingCounts pid).getD 0 + 1
    let mc := setA e.missingCounts pid m
    if fps * 2 < (m : ℚ) then
      ⟨eraseA e.previousCenters pid, eraseA mc pid, eraseA e.stayDuration pid⟩
    else
      ⟨e.previousCenters, mc, e.stayDuration⟩

/-- One iteration of the main `while True` loop for a frame whose
YOLO inference succeeded (source lines 144-263): the detection loop,
the eviction pass, then `previous_centers[pid] = [cx, cy]` for each
detected center.  Returns the new state, the emitted tracker-level
frame record, and the ghost list of ids allocated during this frame. -/
def processFrame (width height : ℕ) (fps : ℚ) (s : TrackState)
    (frameIndex : ℕ) (dets : List Det) : TrackState × FrameRec × List ℕ :=
  let thresh := MATCH_DISTANCE_THRESHOLD width height
  let a := dets.foldl (detStep s.previousCenters thresh)
    ⟨s.missingCounts, s.stayDuration, s.nextId, [], [], []⟩
  let seen := a.centers.map (fun c => c.1)
  let e := (s.previousCenters.map (fun p => p.1)).foldl (evictStep fps seen)
    ⟨s.previousCenters, a.missingCounts, a.stayDuration⟩
  let pcs := a.centers.foldl (fun l c => setA l c.1 (c.2.1, c.2.2))
    e.previousCenters
  (⟨pcs, e.missingCounts, e.stayDuration, a.nextId⟩, ⟨frameIndex, a.objs⟩,
    a.issued)

/-- The main loop over the frame stream.  Each element is the YOLO
result for one frame; `none` models `model(frame)` raising, in which
case the source runs `frame_index += 1; continue` (lines 138-142) —
no frame record is produced and no state changes.  Returns the final
state, the emitted frame records in order, and all allocated ids in
allocation order. -/
def runLoop (width height : ℕ) (fps : ℚ) :
    TrackState → ℕ → List (Option (List Det)) →
      TrackState × List FrameRec × List ℕ
  | s, _, [] => (s, [], [])
  | s, i, none :: rest => runLoop width height fps s (i + 1) rest
  | s, i, some dets :: rest =>
      let r := processFrame width height fps s i dets
      let t := runLoop width height fps r.1 (i + 1) rest
      (t.1, r.2.1 :: t.2.1, r.2.2 ++ t.2.2)

/-! ## Kinematics and importance scorer (both source files, identical) -/

/-- `calculate_importance` (detect_video_full_ai_json_with_vad.py
lines 104-108 and detect_video_full_ai_json.py lines 45-50), as a
function of the three object fields it reads. -/
def calculate_importance (areaPct motionMag conf : ℚ) : ℚ :=
  let area_score := min (areaPct / 100) 1
  let motion_score := min (motionMag / 30) 1
  let conf_score := conf
  45 / 100 * area_score + 35 / 100 * motion_score + 20 / 100 * conf_score

/-- The importance formula exactly as the specification words it:
`0.45 × min(area_percentage/100, 1) + 0.35 × min(motion_magnitude/30, 1)
+ 0.20 × confidence`. -/
def importanceSpec (areaPct motionMag conf : ℚ) : ℚ :=
  45 / 100 * min (areaPct / 100) 1 + 35 / 100 * min (motionMag / 30) 1 +
    20 / 100 * conf

/-! ## Frame Aggregator (real-valued: importance scores and motion
magnitudes are `math.hypot` values, hence reals) -/

/-- The per-object fields the aggregator reads from an emitted object
record: `id`, `importance_score`, `motion_magnitude`, `bbox_center`. -/
structure AggObj where
  id : ℕ
  importanceScore : ℝ
  motionMagnitude : ℝ
  cx : ℝ
  cy : ℝ

/-- Python `max(objects, key=lambda o: o["importance_score"])`
(detect_video_full_ai_json_with_vad.py line 243): start from the first
element, replace the running best only when a later element's key is
strictly greater — so the first element attaining the maximum wins. -/
noncomputable def pickDominant : AggObj → List AggObj → AggObj
  | best, [] => best
  | best, o :: os =>
      pickDominant (if best.importanceScore < o.importanceScore then o else best) os

/-- The dominant-subject fields of a Frame Record. -/
structure DomOut where
  dominantSubjectId : Option ℕ
  dominantSubjectConfidence : ℝ
  frameFocusCenter : ℝ × ℝ

/-- The dominant-subject block (detect_video_full_ai_json_with_vad.py
lines 241-250): with objects, the max-importance record's id, score and
center; with no objects, `None`, `0.0`, `[width/2, height/2]`. -/
noncomputable def setDominant (objs : List AggObj) (width height : ℕ) :
    DomOut :=
  match objs with
  | [] => ⟨none, 0, ((width : ℝ) / 2, (height : ℝ) / 2)⟩
  | o :: os =>
      let dom := pickDominant o os
      ⟨some dom.id, dom.importanceScore, (dom.cx, dom.cy)⟩

/-- `frame_event_score` (detect_video_full_ai_json.py lines 241-248):
`min(1, avg_importance + motion_factor + (0.5 if scene_change else 0))`
with `motion_factor = Σ motion_magnitude / (n · (sqrt(w²+h²)+1))`,
and `0.0` when the frame has no objects. -/
noncomputable def frame_event_score (objs : List AggObj) (width height : ℕ)
    (isSceneChange : Bool) : ℝ :=
  if objs.isEmpty then 0
  else
    let avg_importance := (objs.map AggObj.importanceScore).sum / objs.length
    let motion_factor := (objs.map AggObj.motionMagnitude).sum /
      (objs.length * (Real.sqrt ((width : ℝ) ^ 2 + (height : ℝ) ^ 2) + 1))
    min 1 (avg_importance + motion_factor +
      (if isSceneChange then 1 / 2 else 0))

/-! ## Audio-Video Aligner (detect_video_full_ai_json_with_vad.py
lines 70-82) -/

/-- One element of the list `get_vad_segments` returns
(audio_vad.py lines 32-37). -/
structure VadEntry where
  audioEnergy : ℚ
  speechIntensity : ℚ
  isTalking : Bool
  speechProb : ℚ
deriving DecidableEq, Repr

/-- The `{"is_speech": ..., "speech_prob": ...}` dict `vad_for_frame`
returns. -/
structure AudioInfo where
  isSpeech : Bool
  speechProb : ℚ
deriving DecidableEq, Repr

/-- The default no-speech value `{"is_speech": False, "speech_prob": 0.0}`. -/
def noSpeech : AudioInfo := ⟨false, 0⟩

/-- `vad_for_frame(idx)` (source lines 70-82): empty VAD list or a
mapped index out of bounds yields the no-speech default, otherwise the
entry at `mapped = int((idx / fps) * (1.0 / 0.04))`.  (In doubles,
`1.0/0.04` is exactly `25.0`, so the factor is the exact rational
`1 / (4/100) = 25`.) -/
def vad_for_frame (vadList : List VadEntry) (fps : ℚ) (idx : ℕ) : AudioInfo :=
  if vadList.isEmpty then noSpeech
  else
    let mapped : ℤ := pyInt (((idx : ℚ) / fps) * (1 / (4 / 100)))
    if mapped < 0 ∨ (vadList.length : ℤ) ≤ mapped then noSpeech
    else
      match vadList.get? mapped.toNat with
      | some v => ⟨v.isTalking, v.speechProb⟩
      | none => noSpeech

/-! ## Derived notions used to state the claims -/

/-- Keys of an embedded dict, in order. -/
def keysA {α : Type} (l : List (ℕ × α)) : List ℕ := l.map Prod.fst

/-- Ids of the currently live tracks: the keys of `previous_centers`. -/
def liveIds (s : TrackState) : List ℕ := keysA s.previousCenters

/-- Well-formedness of a tracker state, true of every reachable state:
all dict keys are ids already handed out (below `next_id`), and the
registry keys are distinct (Python dict keys are unique). -/
def Wf (s : TrackState) : Prop :=
  (∀ p ∈ s.previousCenters, p.1 < s.nextId) ∧
  (∀ p ∈ s.missingCounts, p.1 < s.nextId) ∧
  (∀ p ∈ s.stayDuration, p.1 < s.nextId) ∧
  (liveIds s).Nodup

/-- Spec-side rendering of the matching pass of §4.1: every detection,
independently of the others, claims a track by computing its center and
running `matchDetection` against the frame-start registry snapshot; a
detection that matches nothing receives the next unused id.  The claim
compares the ids the embedded source loop emits against this. -/
def assignIds (pcs : List (ℕ × ℚ × ℚ)) (thresh : ℚ) : ℕ → List Det → List ℕ
  | _, [] => []
  | n, d :: ds =>
      match matchDetection pcs thresh (d.cx, d.cy) with
      | some pid => pid :: assignIds pcs thresh n ds
      | none => n :: assignIds pcs thresh (n + 1) ds

/-- The frame indices of the frames whose inference succeeded
(the `some` positions of the input stream), in order. -/
def okIndices : ℕ → List (Option (List Det)) → List ℕ
  | _, [] => []
  | i, none :: rest => okIndices (i + 1) rest
  | i, some _ :: rest => i :: okIndices (i + 1) rest

/-! ## Lemmas about the dict embedding -/

theorem getA_setA_self {α : Type} (l : List (ℕ × α)) (k : ℕ) (v : α) :
    getA (setA l k v) k = some v := by
  induction l with
  | nil => simp [setA, getA]
  | cons p t ih =>
      obtain ⟨k₀, v₀⟩ := p
      by_cases h : k₀ = k <;> simp [setA, getA, h, ih]

theorem getA_setA_ne {α : Type} (l : List (ℕ × α)) (k k' : ℕ) (v : α)
    (h : k' ≠ k) : getA (setA l k v) k' = getA l k' := by
  induction l with
  | nil => simp [setA, getA, h.symm]
  | cons p t ih =>
      obtain ⟨k₀, v₀⟩ := p
      by_cases h₀ : k₀ = k
      · subst h₀
        simp [setA, getA, h.symm]
      · simp [setA, getA, h₀, ih]

theorem getA_eraseA_ne {α : Type} (l : List (ℕ × α)) (k k' : ℕ)
    (h : k' ≠ k) : getA (eraseA l k) k' = getA l k' := by
  induction l with
  | nil => simp [eraseA]
  | cons p t ih =>
      obtain ⟨k₀, v₀⟩ := p
      by_cases h₀ : k₀ = k
      · subst h₀
        simp [eraseA, getA, h.symm]
      · simp [eraseA, getA, h₀, ih]

theorem mem_keysA_setA {α : Type} (l : List (ℕ × α)) (k q : ℕ) (v : α) :
    q ∈ keysA (setA l k v) ↔ q ∈ keysA l ∨ q = k := by
  induction l with
  | nil => simp [setA, keysA, eq_comm]
  | cons p t ih =>
      obtain ⟨k₀, v₀⟩ := p
      by_cases h₀ : k₀ = k
      · subst h₀
        simp [setA, keysA, eq_comm]
        tauto
      · simp only [setA, if_neg h₀, keysA, List.map_cons, List.mem_cons] at ih ⊢
        rw [ih]
        tauto

theorem mem_keysA_eraseA {α : Type} (l : List (ℕ × α)) (k q : ℕ)
    (h : q ∈ keysA (eraseA l k)) : q ∈ keysA l := by
  induction l with
  | nil => simpa [eraseA] using h
  | cons p t ih =>
      obtain ⟨k₀, v₀⟩ := p
      by_cases h₀ : k₀ = k
      · subst h₀
        simp only [eraseA, if_pos rfl] at h
        simp [keysA] at h ⊢
        tauto
      · simp only [eraseA, if_neg h₀, keysA, List.map_cons, List.mem_cons] at h ⊢
        tauto

theorem not_mem_keysA_eraseA {α : Type} (l : List (ℕ × α)) (k : ℕ)
    (h : (keysA l).Nodup) : k ∉ keysA (eraseA l k) := by
  induction l with
  | nil => simp [eraseA, keysA]
  | cons p t ih =>
      obtain ⟨k₀, v₀⟩ := p
      simp only [keysA, List.map_cons, List.nodup_cons] at h
      by_cases h₀ : k₀ = k
      · subst h₀
        simpa [eraseA, keysA] using h.1
      · simp only [eraseA, if_neg h₀, keysA, List.map_cons, List.mem_cons]
        push_neg
        exact ⟨fun hh => h₀ hh.symm, ih h.2⟩

theorem nodup_keysA_eraseA {α : Type} (l : List (ℕ × α)) (k : ℕ)
    (h : (keysA l).Nodup) : (keysA (eraseA l k)).Nodup := by
  induction l with
  | nil => simpa [eraseA] using h
  | cons p t ih =>
      obtain ⟨k₀, v₀⟩ := p
      simp only [keysA, List.map_cons, List.nodup_cons] at h
      by_cases h₀ : k₀ = k
      · subst h₀
        simpa [eraseA, keysA] using h.2
      · simp only [eraseA, if_neg h₀, keysA, List.map_cons, List.nodup_cons]
        exact ⟨fun hm => h.1 (mem_keysA_eraseA t k k₀ hm), ih h.2⟩

theorem nodup_keysA_setA {α : Type} (l : List (ℕ × α)) (k : ℕ) (v : α)
    (h : (keysA l).Nodup) : (keysA (setA l k v)).Nodup := by
  induction l with
  | nil => simp [setA, keysA]
  | cons p t ih =>
      obtain ⟨k₀, v₀⟩ := p
      simp only [keysA, List.map_cons, List.nodup_cons] at h
      by_cases h₀ : k₀ = k
      · subst h₀
        simpa [setA, keysA, List.nodup_cons] using h
      · simp only [setA, if_neg h₀, keysA, List.map_cons, List.nodup_cons]
        refine ⟨fun hm => ?_, ih h.2⟩
        rcases (mem_keysA_setA t k k₀ v).1 hm with hm | hm
        · exact h.1 hm
        · exact h₀ hm

theorem getA_eq_none_iff {α : Type} (l : List (ℕ × α)) (q : ℕ) :
    getA l q = none ↔ q ∉ keysA l := by
  induction l with
  | nil => simp [getA, keysA]
  | cons p t ih =>
      obtain ⟨k₀, v₀⟩ := p
      by_cases h₀ : k₀ = q <;> simp [getA, keysA, h₀, ih, eq_comm] at ih ⊢ <;> tauto

/-! ## The arg-min matching loop (Track Registry, §4.1) -/

theorem nearFold_spec (c : ℚ × ℚ) (l : List (ℕ × ℚ × ℚ)) :
    ∀ b : ℕ × ℚ, ∃ pid md,
      l.foldl (nearStep c) (some b) = some (pid, md) ∧
      ((pid, md) = b ∨ ∃ p ∈ l, pid = p.1 ∧ md = dist2 c (p.2.1, p.2.2)) ∧
      md ≤ b.2 ∧ ∀ p ∈ l, md ≤ dist2 c (p.2.1, p.2.2) := by
  induction l with
  | nil =>
      rintro ⟨b1, b2⟩
      exact ⟨b1, b2, rfl, Or.inl rfl, le_refl _, by simp⟩
  | cons p t ih =>
      rintro ⟨b1, b2⟩
      by_cases hd : dist2 c (p.2.1, p.2.2) < b2
      · obtain ⟨pid, md, h1, h2, h3, h4⟩ := ih (p.1, dist2 c (p.2.1, p.2.2))
        refine ⟨pid, md, ?_, ?_, le_of_lt (lt_of_le_of_lt h3 hd), ?_⟩
        · simpa [nearStep, hd] using h1
        · rcases h2 with h2 | ⟨q, hq, hh⟩
          · exact Or.inr ⟨p, List.mem_cons_self p t, by
              simpa using congrArg Prod.fst h2, by
              simpa using congrArg Prod.snd h2⟩
          · exact Or.inr ⟨q, List.mem_cons_of_mem p hq, hh⟩
        · intro q hq
          rcases List.mem_cons.1 hq with rfl | hq
          · exact h3
          · exact h4 q hq
      · obtain ⟨pid, md, h1, h2, h3, h4⟩ := ih (b1, b2)
        refine ⟨pid, md, ?_, ?_, h3, ?_⟩
        · simpa [nearStep, hd] using h1
        · rcases h2 with h2 | ⟨q, hq, hh⟩
          · exact Or.inl h2
          · exact Or.inr ⟨q, List.mem_cons_of_mem p hq, hh⟩
        · intro q hq
          rcases List.mem_cons.1 hq with rfl | hq
          · exact le_trans h3 (not_lt.1 hd)
          · exact h4 q hq

theorem findNearest_cons_spec (c : ℚ × ℚ) (p : ℕ × ℚ × ℚ)
    (t : List (ℕ × ℚ × ℚ)) :
    ∃ pid md, findNearest c (p :: t) = some (pid, md) ∧
      (∃ q ∈ p :: t, pid = q.1 ∧ md = dist2 c (q.2.1, q.2.2)) ∧
      ∀ q ∈ p :: t, md ≤ dist2 c (q.2.1, q.2.2) := by
  obtain ⟨pid, md, h1, h2, h3, h4⟩ :=
    nearFold_spec c t (p.1, dist2 c (p.2.1, p.2.2))
  refine ⟨pid, md, ?_, ?_, ?_⟩
  · simpa [findNearest, nearStep] using h1
  · rcases h2 with h2 | ⟨q, hq, hh⟩
    · exact ⟨p, List.mem_cons_self p t, by
        simpa using congrArg Prod.fst h2, by
        simpa using congrArg Prod.snd h2⟩
    · exact ⟨q, List.mem_cons_of_mem p hq, hh⟩
  · intro q hq
    rcases List.mem_cons.1 hq with rfl | hq
    · exact h3
    · exact h4 q hq

theorem matchDetection_none_iff (pcs : List (ℕ × ℚ × ℚ)) (T : ℚ)
    (c : ℚ × ℚ) :
    matchDetection pcs T c = none ↔
      pcs = [] ∨ ∀ p ∈ pcs, T ^ 2 < dist2 c (p.2.1, p.2.2) := by
  cases pcs with
  | nil => simp [matchDetection, findNearest]
  | cons p t =>
      obtain ⟨pid, md, h1, h2, h3⟩ := findNearest_cons_spec c p t
      constructor
      · intro h
        unfold matchDetection at h
        rw [h1] at h
        by_cases hc : T ^ 2 < md
        · exact Or.inr fun q hq => lt_of_lt_of_le hc (h3 q hq)
        · simp [hc] at h
      · rintro (h | h)
        · cases h
        · obtain ⟨q, hq, hpid, hmd⟩ := h2
          have hc : T ^ 2 < md := hmd ▸ h q hq
          unfold matchDetection
          rw [h1]
          simp [hc]

theorem matchDetection_some (pcs : List (ℕ × ℚ × ℚ)) (T : ℚ) (c : ℚ × ℚ)
    (pid : ℕ) (h : matchDetection pcs T c = some pid) :
    ∃ x y, (pid, x, y) ∈ pcs ∧ dist2 c (x, y) ≤ T ^ 2 ∧
      ∀ p ∈ pcs, dist2 c (x, y) ≤ dist2 c (p.2.1, p.2.2) := by
  cases pcs with
  | nil => simp [matchDetection, findNearest] at h
  | cons q t =>
      obtain ⟨pid', md, h1, h2, h3⟩ := findNearest_cons_spec c q t
      unfold matchDetection at h
      rw [h1] at h
      by_cases hc : T ^ 2 < md
      · simp [hc] at h
      · simp only [if_neg hc, Option.some.injEq] at h
        subst h
        obtain ⟨r, hr, hpid, hmd⟩ := h2
        obtain ⟨r1, rx, ry⟩ := r
        simp only at hpid hmd
        subst hpid
        refine ⟨rx, ry, hr, ?_, ?_⟩
        · rw [← hmd]
          exact not_lt.1 hc
        · intro p hp
          rw [← hmd]
          exact h3 p hp

theorem matchDetection_some_mem_keys (pcs : List (ℕ × ℚ × ℚ)) (T : ℚ)
    (c : ℚ × ℚ) (pid : ℕ) (h : matchDetection pcs T c = some pid) :
    pid ∈ keysA pcs := by
  obtain ⟨x, y, hm, -, -⟩ := matchDetection_some pcs T c pid h
  exact List.mem_map.2 ⟨(pid, x, y), hm, rfl⟩

/-! ## The detection loop: one step -/

theorem detStep_fields (pcs : List (ℕ × ℚ × ℚ)) (T : ℚ) (a : FrameAcc)
    (d : Det) :
    ((detStep pcs T a d).nextId, (detStep pcs T a d).issued,
      (detStep pcs T a d).objs.map ObjRec.id,
      (detStep pcs T a d).centers.map Prod.fst,
      (detStep pcs T a d).missingCounts) =
    (match matchDetection pcs T (d.cx, d.cy) with
      | some pid => (a.nextId, a.issued, a.objs.map ObjRec.id ++ [pid],
          a.centers.map Prod.fst ++ [pid], a.missingCounts)
      | none => (a.nextId + 1, a.issued ++ [a.nextId],
          a.objs.map ObjRec.id ++ [a.nextId],
          a.centers.map Prod.fst ++ [a.nextId],
          setA a.missingCounts a.nextId 0)) := by
  rcases h : matchDetection pcs T (d.cx, d.cy) with _ | pid <;>
    simp [detStep, h]

theorem detStep_stay_keys (pcs : List (ℕ × ℚ × ℚ)) (T : ℚ) (a : FrameAcc)
    (d : Det) (q : ℕ) (hq : q ∈ keysA (detStep pcs T a d).stayDuration) :
    q ∈ keysA a.stayDuration ∨ q ∈ keysA pcs ∨
      (q = a.nextId ∧ (detStep pcs T a d).nextId = a.nextId + 1) := by
  rcases h : matchDetection pcs T (d.cx, d.cy) with _ | pid
  · have hn : (detStep pcs T a d).nextId = a.nextId + 1 := by
      rcases hg : getA pcs a.nextId with _ | pc <;> simp [detStep, h, hg]
    rcases hg : getA pcs a.nextId with _ | pc <;>
      simp only [detStep, h, hg] at hq <;>
    · rcases (mem_keysA_setA _ _ _ _).1 hq with hq | hq
      · rcases (mem_keysA_setA _ _ _ _).1 hq with hq | hq
        · exact Or.inl hq
        · exact Or.inr (Or.inr ⟨hq, hn⟩)
      · exact Or.inr (Or.inr ⟨hq, hn⟩)
  · have hk : pid ∈ keysA pcs := matchDetection_some_mem_keys pcs T _ pid h
    rcases hg : getA pcs pid with _ | pc <;>
      simp only [detStep, h, hg] at hq <;>
    · rcases (mem_keysA_setA _ _ _ _).1 hq with hq | hq
      · exact Or.inl hq
      · exact Or.inr (Or.inl (hq ▸ hk))

/-! ## The detection loop: whole-frame fold -/

theorem detFold_spec (pcs : List (ℕ × ℚ × ℚ)) (T : ℚ) (dets : List Det) :
    ∀ a : FrameAcc,
      a.nextId ≤ (dets.foldl (detStep pcs T) a).nextId ∧
      (dets.foldl (detStep pcs T) a).issued =
        a.issued ++ List.range' a.nextId
          ((dets.foldl (detStep pcs T) a).nextId - a.nextId) ∧
      (dets.foldl (detStep pcs T) a).objs.map ObjRec.id =
        a.objs.map ObjRec.id ++ assignIds pcs T a.nextId dets ∧
      (dets.foldl (detStep pcs T) a).centers.map Prod.fst =
        a.centers.map Prod.fst ++ assignIds pcs T a.nextId dets ∧
      (∀ q, q < a.nextId →
        getA (dets.foldl (detStep pcs T) a).missingCounts q =
          getA a.missingCounts q) ∧
      (∀ q, q ∈ keysA (dets.foldl (detStep pcs T) a).missingCounts →
        q ∈ keysA a.missingCounts ∨
          (a.nextId ≤ q ∧ q < (dets.foldl (detStep pcs T) a).nextId)) ∧
      (∀ q, q ∈ keysA (dets.foldl (detStep pcs T) a).stayDuration →
        q ∈ keysA a.stayDuration ∨ q ∈ keysA pcs ∨
          (a.nextId ≤ q ∧ q < (dets.foldl (detStep pcs T) a).nextId)) := by
  induction dets with
  | nil =>
      intro a
      refine ⟨le_refl _, by simp, by simp [assignIds], by simp [assignIds],
        fun q _ => rfl, fun q hq => Or.inl hq, fun q hq => Or.inl hq⟩
  | cons d ds ih =>
      intro a
      rw [List.foldl_cons]
      have hstep := detStep_fields pcs T a d
      have hstay := detStep_stay_keys pcs T a d
      set a₁ := detStep pcs T a d with ha₁
      obtain ⟨ih1, ih2, ih3, ih4, ih5, ih6, ih7⟩ := ih a₁
      rcases h : matchDetection pcs T (d.cx, d.cy) with _ | pid <;>
        rw [h] at hstep <;>
        simp only [Prod.mk.injEq] at hstep <;>
        obtain ⟨e1, e2, e3, e4, e5⟩ := hstep
      · -- allocation case: matchDetection = none
        have hn : a₁.nextId = a.nextId + 1 := e1
        refine ⟨by omega, ?_, ?_, ?_, ?_, ?_, ?_⟩
        · rw [ih2, e2, List.append_assoc]
          congr 1
          have hk : (ds.foldl (detStep pcs T) a₁).nextId - a.nextId =
              ((ds.foldl (detStep pcs T) a₁).nextId - a₁.nextId) + 1 := by
            omega
          rw [hk, List.range'_succ, hn]
          rfl
        · rw [ih3, e3, assignIds, h, List.append_assoc, hn]
          rfl
        · rw [ih4, e4, assignIds, h, List.append_assoc, hn]
          rfl
        · intro q hq
          rw [ih5 q (by omega), e5, getA_setA_ne _ _ _ _ (by omega)]
        · intro q hq
          rcases ih6 q hq with hq | hq
          · rw [e5] at hq
            rcases (mem_keysA_setA _ _ _ _).1 hq with hq | hq
            · exact Or.inl hq
            · right
              constructor
              · omega
              · have := ih1
                omega
          · right
            omega
        · intro q hq
          rcases ih7 q hq with hq | hq | hq
          · rcases hstay q hq with hq | hq | ⟨hq1, hq2⟩
            · exact Or.inl hq
            · exact Or.inr (Or.inl hq)
            · right
              right
              have := ih1
              omega
          · exact Or.inr (Or.inl hq)
          · right
            right
            omega
      · -- matched case: matchDetection = some pid
        have hn : a₁.nextId = a.nextId := e1
        refine ⟨by omega, ?_, ?_, ?_, ?_, ?_, ?_⟩
        · rw [ih2, e2, hn]
        · rw [ih3, e3, assignIds, h, List.append_assoc, hn]
          rfl
        · rw [ih4, e4, assignIds, h, List.append_assoc, hn]
          rfl
        · intro q hq
          rw [ih5 q (by omega), e5]
        · intro q hq
          rcases ih6 q hq with hq | hq
          · rw [e5] at hq
            exact Or.inl hq
          · right
            omega
        · intro q hq
          rcases ih7 q hq with hq | hq | hq
          · rcases hstay q hq with hq | hq | ⟨hq1, hq2⟩
            · exact Or.inl hq
            · exact Or.inr (Or.inl hq)
            · right
              right
              have := ih1
              omega
          · exact Or.inr (Or.inl hq)
          · right
            right
            omega

theorem assignIds_bound (pcs : List (ℕ × ℚ × ℚ)) (T : ℚ) :
    ∀ (dets : List Det) (a : FrameAcc) (q : ℕ),
      q ∈ assignIds pcs T a.nextId dets →
      q ∈ keysA pcs ∨
        (a.nextId ≤ q ∧ q < (dets.foldl (detStep pcs T) a).nextId) := by
  intro dets
  induction dets with
  | nil => intro a q hq; simp [assignIds] at hq
  | cons d ds ih =>
      intro a q hq
      rw [List.foldl_cons]
      have hstep := detStep_fields pcs T a d
      set a₁ := detStep pcs T a d with ha₁
      have hfin := (detFold_spec pcs T ds a₁).1
      rcases h : matchDetection pcs T (d.cx, d.cy) with _ | pid <;>
        rw [h] at hstep <;>
        simp only [Prod.mk.injEq] at hstep <;>
        rw [assignIds, h] at hq <;>
        rcases List.mem_cons.1 hq with rfl | hq
      · right
        have hn : a₁.nextId = a.nextId + 1 := hstep.1
        omega
      · have hn : a₁.nextId = a.nextId + 1 := hstep.1
        rcases ih a₁ q (by rw [hn]; exact hq) with hq | hq
        · exact Or.inl hq
        · right
          omega
      · exact Or.inl (matchDetection_some_mem_keys pcs T _ q h)
      · have hn : a₁.nextId = a.nextId := hstep.1
        rcases ih a₁ q (by rw [hn]; exact hq) with hq | hq
        · exact Or.inl hq
        · right
          omega

/-! ## The eviction pass (source lines 229-236) -/

theorem mem_keysA_eraseA_of_ne {α : Type} (l : List (ℕ × α)) (k q : ℕ)
    (hne : q ≠ k) (h : q ∈ keysA l) : q ∈ keysA (eraseA l k) := by
  induction l with
  | nil => simpa [keysA] using h
  | cons p t ih =>
      obtain ⟨k₀, v₀⟩ := p
      simp only [keysA, List.map_cons, List.mem_cons] at h
      by_cases h₀ : k₀ = k
      · subst h₀
        rcases h with h | h
        · exact absurd (h.trans rfl) hne
        · simpa [eraseA, keysA] using h
      · simp only [eraseA, if_neg h₀, keysA, List.map_cons, List.mem_cons]
        rcases h with h | h
        · exact Or.inl h
        · exact Or.inr (ih h)

/-- Unfolded form of `evictStep`, convenient for case analysis. -/
theorem evictStep_eq (fps : ℚ) (seen : List ℕ) (e : EvictAcc) (k : ℕ) :
    evictStep fps seen e k =
      if k ∈ seen then e
      else if fps * 2 < (((getA e.missingCounts k).getD 0 + 1 : ℕ) : ℚ) then
        ⟨eraseA e.previousCenters k,
          eraseA (setA e.missingCounts k ((getA e.missingCounts k).getD 0 + 1)) k,
          eraseA e.stayDuration k⟩
      else
        ⟨e.previousCenters,
          setA e.missingCounts k ((getA e.missingCounts k).getD 0 + 1),
          e.stayDuration⟩ := rfl

theorem evictStep_pcs_sub (fps : ℚ) (seen : List ℕ) (e : EvictAcc) (k q : ℕ)
    (hq : q ∈ keysA (evictStep fps seen e k).previousCenters) :
    q ∈ keysA e.previousCenters := by
  rw [evictStep_eq] at hq
  split_ifs at hq
  · exact hq
  · exact mem_keysA_eraseA _ _ _ hq
  · exact hq

theorem evictStep_pcs_nodup (fps : ℚ) (seen : List ℕ) (e : EvictAcc) (k : ℕ)
    (h : (keysA e.previousCenters).Nodup) :
    (keysA (evictStep fps seen e k).previousCenters).Nodup := by
  rw [evictStep_eq]
  split_ifs
  · exact h
  · exact nodup_keysA_eraseA _ _ h
  · exact h

theorem evictStep_missing_keys (fps : ℚ) (seen : List ℕ) (e : EvictAcc)
    (k q : ℕ) (hq : q ∈ keysA (evictStep fps seen e k).missingCounts) :
    q ∈ keysA e.missingCounts ∨ q = k := by
  rw [evictStep_eq] at hq
  split_ifs at hq
  · exact Or.inl hq
  · exact (mem_keysA_setA _ _ _ _).1 (mem_keysA_eraseA _ _ _ hq)
  · exact (mem_keysA_setA _ _ _ _).1 hq

theorem evictStep_stay_keys (fps : ℚ) (seen : List ℕ) (e : EvictAcc)
    (k q : ℕ) (hq : q ∈ keysA (evictStep fps seen e k).stayDuration) :
    q ∈ keysA e.stayDuration := by
  rw [evictStep_eq] at hq
  split_ifs at hq
  · exact hq
  · exact mem_keysA_eraseA _ _ _ hq
  · exact hq

theorem evictStep_missing_stable (fps : ℚ) (seen : List ℕ) (e : EvictAcc)
    (k q : ℕ) (hne : q ≠ k) :
    getA (evictStep fps seen e k).missingCounts q = getA e.missingCounts q := by
  rw [evictStep_eq]
  split_ifs
  · rfl
  · rw [getA_eraseA_ne _ _ _ hne, getA_setA_ne _ _ _ _ hne]
  · rw [getA_setA_ne _ _ _ _ hne]

theorem evictFold_pcs_sub (fps : ℚ) (seen : List ℕ) :
    ∀ (ks : List ℕ) (e : EvictAcc) (q : ℕ),
      q ∈ keysA ((ks.foldl (evictStep fps seen) e).previousCenters) →
      q ∈ keysA e.previousCenters := by
  intro ks
  induction ks with
  | nil => intro e q hq; exact hq
  | cons k t ih =>
      intro e q hq
      rw [List.foldl_cons] at hq
      exact evictStep_pcs_sub fps seen e k q (ih _ q hq)

theorem evictFold_pcs_nodup (fps : ℚ) (seen : List ℕ) :
    ∀ (ks : List ℕ) (e : EvictAcc),
      (keysA e.previousCenters).Nodup →
      (keysA ((ks.foldl (evictStep fps seen) e).previousCenters)).Nodup := by
  intro ks
  induction ks with
  | nil => intro e h; exact h
  | cons k t ih =>
      intro e h
      rw [List.foldl_cons]
      exact ih _ (evictStep_pcs_nodup fps seen e k h)

theorem evictFold_missing_keys (fps : ℚ) (seen : List ℕ) :
    ∀ (ks : List ℕ) (e : EvictAcc) (q : ℕ),
      q ∈ keysA ((ks.foldl (evictStep fps seen) e).missingCounts) →
      q ∈ keysA e.missingCounts ∨ q ∈ ks := by
  intro ks
  induction ks with
  | nil => intro e q hq; exact Or.inl hq
  | cons k t ih =>
      intro e q hq
      rw [List.foldl_cons] at hq
      rcases ih _ q hq with hq | hq
      · rcases evictStep_missing_keys fps seen e k q hq with hq | hq
        · exact Or.inl hq
        · exact Or.inr (by simp [hq])
      · exact Or.inr (List.mem_cons_of_mem k hq)

theorem evictFold_stay_keys (fps : ℚ) (seen : List ℕ) :
    ∀ (ks : List ℕ) (e : EvictAcc) (q : ℕ),
      q ∈ keysA ((ks.foldl (evictStep fps seen) e).stayDuration) →
      q ∈ keysA e.stayDuration := by
  intro ks
  induction ks with
  | nil => intro e q hq; exact hq
  | cons k t ih =>
      intro e q hq
      rw [List.foldl_cons] at hq
      exact evictStep_stay_keys fps seen e k q (ih _ q hq)

theorem evictFold_removes (fps : ℚ) (seen : List ℕ) (pid : ℕ)
    (hseen : pid ∉ seen) :
    ∀ (ks : List ℕ) (e : EvictAcc), pid ∈ ks →
      (keysA e.previousCenters).Nodup →
      fps * 2 < (((getA e.missingCounts pid).getD 0 + 1 : ℕ) : ℚ) →
      pid ∉ keysA ((ks.foldl (evictStep fps seen) e).previousCenters) := by
  intro ks
  induction ks with
  | nil => intro e h; cases h
  | cons k t ih =>
      intro e hmem hnd hcond
      rw [List.foldl_cons]
      by_cases hk : k = pid
      · subst hk
        have he : evictStep fps seen e k =
            ⟨eraseA e.previousCenters k, eraseA
              (setA e.missingCounts k ((getA e.missingCounts k).getD 0 + 1)) k,
              eraseA e.stayDuration k⟩ := by
          rw [evictStep_eq, if_neg hseen, if_pos hcond]
        intro hmem2
        have := evictFold_pcs_sub fps seen t _ k hmem2
        rw [he] at this
        exact not_mem_keysA_eraseA _ _ hnd this
      · have hmem' : pid ∈ t := by
          rcases List.mem_cons.1 hmem with h | h
          · exact absurd h.symm hk
          · exact h
        refine ih _ hmem' (evictStep_pcs_nodup fps seen e k hnd) ?_
        rw [evictStep_missing_stable fps seen e k pid (fun h => hk h.symm)]
        exact hcond

/-! ## The final `previous_centers[pid] = [cx, cy]` pass
(source lines 238-239) -/

theorem setFold_keys (centers : List (ℕ × ℚ × ℚ)) :
    ∀ (l : List (ℕ × ℚ × ℚ)) (q : ℕ),
      q ∈ keysA (centers.foldl (fun l c => setA l c.1 (c.2.1, c.2.2)) l) →
      q ∈ keysA l ∨ q ∈ centers.map Prod.fst := by
  induction centers with
  | nil => intro l q hq; exact Or.inl hq
  | cons c t ih =>
      intro l q hq
      rw [List.foldl_cons] at hq
      rcases ih _ q hq with hq | hq
      · rcases (mem_keysA_setA _ _ _ _).1 hq with hq | hq
        · exact Or.inl hq
        · exact Or.inr (by simp [hq])
      · exact Or.inr (List.mem_cons_of_mem _ hq)

theorem setFold_nodup (centers : List (ℕ × ℚ × ℚ)) :
    ∀ (l : List (ℕ × ℚ × ℚ)),
      (keysA l).Nodup →
      (keysA (centers.foldl (fun l c => setA l c.1 (c.2.1, c.2.2)) l)).Nodup := by
  induction centers with
  | nil => intro l h; exact h
  | cons c t ih =>
      intro l h
      rw [List.foldl_cons]
      exact ih _ (nodup_keysA_setA _ _ _ h)

/-! ## Frame-level consequences -/

theorem keysA_lt {α : Type} (l : List (ℕ × α)) (n : ℕ)
    (h : ∀ p ∈ l, p.1 < n) (q : ℕ) (hq : q ∈ keysA l) : q < n := by
  obtain ⟨p, hp, rfl⟩ := List.mem_map.1 hq
  exact h p hp

/-- `processFrame` written out with its two folds named, for rewriting. -/
theorem processFrame_parts (width height : ℕ) (fps : ℚ) (s : TrackState)
    (i : ℕ) (dets : List Det) (A : FrameAcc) (E : EvictAcc)
    (hA : A = dets.foldl
      (detStep s.previousCenters (MATCH_DISTANCE_THRESHOLD width height))
      ⟨s.missingCounts, s.stayDuration, s.nextId, [], [], []⟩)
    (hE : E = (s.previousCenters.map (fun p => p.1)).foldl
      (evictStep fps (A.centers.map (fun c => c.1)))
      ⟨s.previousCenters, A.missingCounts, A.stayDuration⟩) :
    processFrame width height fps s i dets =
      (⟨A.centers.foldl (fun l c => setA l c.1 (c.2.1, c.2.2))
          E.previousCenters,
        E.missingCounts, E.stayDuration, A.nextId⟩, ⟨i, A.objs⟩, A.issued) := by
  subst hA
  subst hE
  rfl

theorem processFrame_objIds (width height : ℕ) (fps : ℚ) (s : TrackState)
    (i : ℕ) (dets : List Det) :
    (processFrame width height fps s i dets).2.1.objects.map ObjRec.id =
      assignIds s.previousCenters (MATCH_DISTANCE_THRESHOLD width height)
        s.nextId dets := by
  rw [processFrame_parts width height fps s i dets _ _ rfl rfl]
  have h := (detFold_spec s.previousCenters
    (MATCH_DISTANCE_THRESHOLD width height) dets
    ⟨s.missingCounts, s.stayDuration, s.nextId, [], [], []⟩).2.2.1
  simpa using h

theorem processFrame_frameIndex (width height : ℕ) (fps : ℚ) (s : TrackState)
    (i : ℕ) (dets : List Det) :
    (processFrame width height fps s i dets).2.1.frame = i := by
  rw [processFrame_parts width height fps s i dets _ _ rfl rfl]

theorem processFrame_nextId_ge (width height : ℕ) (fps : ℚ) (s : TrackState)
    (i : ℕ) (dets : List Det) :
    s.nextId ≤ (processFrame width height fps s i dets).1.nextId := by
  rw [processFrame_parts width height fps s i dets _ _ rfl rfl]
  have h := (detFold_spec s.previousCenters
    (MATCH_DISTANCE_THRESHOLD width height) dets
    ⟨s.missingCounts, s.stayDuration, s.nextId, [], [], []⟩).1
  simpa using h

theorem processFrame_issued (width height : ℕ) (fps : ℚ) (s : TrackState)
    (i : ℕ) (dets : List Det) :
    (processFrame width height fps s i dets).2.2 =
      List.range' s.nextId
        ((processFrame width height fps s i dets).1.nextId - s.nextId) := by
  rw [processFrame_parts width height fps s i dets _ _ rfl rfl]
  have h := (detFold_spec s.previousCenters
    (MATCH_DISTANCE_THRESHOLD width height) dets
    ⟨s.missingCounts, s.stayDuration, s.nextId, [], [], []⟩).2.1
  simpa using h

theorem processFrame_live_sub (width height : ℕ) (fps : ℚ) (s : TrackState)
    (i : ℕ) (dets : List Det) (q : ℕ)
    (hq : q ∈ liveIds (processFrame width height fps s i dets).1) :
    q ∈ liveIds s ∨
      (s.nextId ≤ q ∧ q < (processFrame width height fps s i dets).1.nextId) := by
  rw [processFrame_parts width height fps s i dets _ _ rfl rfl] at hq ⊢
  set T := MATCH_DISTANCE_THRESHOLD width height
  set a₀ : FrameAcc := ⟨s.missingCounts, s.stayDuration, s.nextId, [], [], []⟩
    with ha₀
  set A := dets.foldl (detStep s.previousCenters T) a₀ with hA
  set E := (s.previousCenters.map (fun p => p.1)).foldl
    (evictStep fps (A.centers.map (fun c => c.1)))
    ⟨s.previousCenters, A.missingCounts, A.stayDuration⟩ with hE
  have hc4 := (detFold_spec s.previousCenters T dets a₀).2.2.2.1
  simp only [liveIds] at hq ⊢
  rcases setFold_keys A.centers E.previousCenters q hq with hq | hq
  · have := evictFold_pcs_sub fps (A.centers.map (fun c => c.1)) _ _ q hq
    exact Or.inl this
  · rw [← hA, show a₀.centers.map Prod.fst = [] from rfl] at hc4
    rw [show A.centers.map (fun c : ℕ × ℚ × ℚ => c.1) =
      A.centers.map Prod.fst from rfl, hc4, List.nil_append] at hq
    rcases assignIds_bound s.previousCenters T dets a₀ q
        (by simpa using hq) with hq | hq
    · exact Or.inl hq
    · right
      simpa using hq

theorem processFrame_wf (width height : ℕ) (fps : ℚ) (s : TrackState)
    (i : ℕ) (dets : List Det) (hwf : Wf s) :
    Wf (processFrame width height fps s i dets).1 := by
  obtain ⟨hw1, hw2, hw3, hw4⟩ := hwf
  have hlive := processFrame_live_sub width height fps s i dets
  rw [processFrame_parts width height fps s i dets _ _ rfl rfl] at hlive ⊢
  set T := MATCH_DISTANCE_THRESHOLD width height
  set a₀ : FrameAcc := ⟨s.missingCounts, s.stayDuration, s.nextId, [], [], []⟩
    with ha₀
  set A := dets.foldl (detStep s.previousCenters T) a₀ with hA
  set E := (s.previousCenters.map (fun p => p.1)).foldl
    (evictStep fps (A.centers.map (fun c => c.1)))
    ⟨s.previousCenters, A.missingCounts, A.stayDuration⟩ with hE
  have hn0 : s.nextId ≤ A.nextId := by
    have := (detFold_spec s.previousCenters T dets a₀).1
    simpa using this
  have hm6 := (detFold_spec s.previousCenters T dets a₀).2.2.2.2.2.1
  have hm7 := (detFold_spec s.previousCenters T dets a₀).2.2.2.2.2.2
  refine ⟨?_, ?_, ?_, ?_⟩
  · intro p hp
    have hq : p.1 ∈ keysA (A.centers.foldl
        (fun l c => setA l c.1 (c.2.1, c.2.2)) E.previousCenters) :=
      List.mem_map.2 ⟨p, hp, rfl⟩
    rcases hlive p.1 (by simpa [liveIds] using hq) with hq' | hq'
    · exact lt_of_lt_of_le (keysA_lt _ _ hw1 _ hq') hn0
    · simpa using hq'.2
  · intro p hp
    have hq : p.1 ∈ keysA E.missingCounts := List.mem_map.2 ⟨p, hp, rfl⟩
    rcases evictFold_missing_keys fps _ _ _ p.1 hq with hq' | hq'
    · rcases hm6 p.1 (by simpa using hq') with hq'' | hq''
      · exact lt_of_lt_of_le (keysA_lt _ _ hw2 _ (by simpa using hq'')) hn0
      · simpa using hq''.2
    · exact lt_of_lt_of_le (keysA_lt _ _ hw1 _ hq') hn0
  · intro p hp
    have hq : p.1 ∈ keysA E.stayDuration := List.mem_map.2 ⟨p, hp, rfl⟩
    have hq' := evictFold_stay_keys fps _ _ _ p.1 hq
    rcases hm7 p.1 (by simpa using hq') with hq'' | hq'' | hq''
    · exact lt_of_lt_of_le (keysA_lt _ _ hw3 _ (by simpa using hq'')) hn0
    · exact lt_of_lt_of_le (keysA_lt _ _ hw1 _ hq'') hn0
    · simpa using hq''.2
  · exact setFold_nodup _ _ (evictFold_pcs_nodup fps _ _ _ hw4)

theorem processFrame_dead (width height : ℕ) (fps : ℚ) (s : TrackState)
    (i : ℕ) (dets : List Det) (q : ℕ) (hwf : Wf s) (hlt : q < s.nextId)
    (hdead : q ∉ liveIds s) :
    q ∉ liveIds (processFrame width height fps s i dets).1 ∧
      q ∉ (processFrame width height fps s i dets).2.1.objects.map ObjRec.id := by
  constructor
  · intro hq
    rcases processFrame_live_sub width height fps s i dets q hq with hq' | hq'
    · exact hdead hq'
    · omega
  · intro hq
    rw [processFrame_objIds] at hq
    rcases assignIds_bound s.previousCenters
        (MATCH_DISTANCE_THRESHOLD width height) dets
        ⟨s.missingCounts, s.stayDuration, s.nextId, [], [], []⟩ q
        (by simpa using hq) with hq' | hq'
    · exact hdead hq'
    · have : s.nextId ≤ q := by simpa using hq'.1
      omega

theorem processFrame_evicts (width height : ℕ) (fps : ℚ) (s : TrackState)
    (i : ℕ) (dets : List Det) (pid : ℕ) (hwf : Wf s)
    (hlive : pid ∈ liveIds s)
    (hunmatched : pid ∉
      (processFrame width height fps s i dets).2.1.objects.map ObjRec.id)
    (hcond : fps * 2 < (((getA s.missingCounts pid).getD 0 + 1 : ℕ) : ℚ)) :
    pid ∉ liveIds (processFrame width height fps s i dets).1 := by
  have hids := processFrame_objIds width height fps s i dets
  have hpidlt : pid < s.nextId := keysA_lt _ _ hwf.1 _ hlive
  rw [hids] at hunmatched
  rw [processFrame_parts width height fps s i dets _ _ rfl rfl]
  set T := MATCH_DISTANCE_THRESHOLD width height with hT
  set a₀ : FrameAcc := ⟨s.missingCounts, s.stayDuration, s.nextId, [], [], []⟩
    with ha₀
  have hc4 := (detFold_spec s.previousCenters T dets a₀).2.2.2.1
  have hc5 := (detFold_spec s.previousCenters T dets a₀).2.2.2.2.1
  set A := dets.foldl (detStep s.previousCenters T) a₀ with hA
  set E := (s.previousCenters.map (fun p => p.1)).foldl
    (evictStep fps (A.centers.map (fun c => c.1)))
    ⟨s.previousCenters, A.missingCounts, A.stayDuration⟩ with hE
  have hseen : A.centers.map (fun c : ℕ × ℚ × ℚ => c.1) =
      assignIds s.previousCenters T s.nextId dets := by
    show A.centers.map Prod.fst = _
    rw [hc4]
    simp [ha₀]
  have hnotseen : pid ∉ A.centers.map (fun c : ℕ × ℚ × ℚ => c.1) := by
    rw [hseen]
    exact hunmatched
  have hstable : getA A.missingCounts pid = getA s.missingCounts pid := by
    have h5 := hc5 pid (by simpa [ha₀] using hpidlt)
    simpa [ha₀] using h5
  have hout : pid ∉ keysA E.previousCenters := by
    rw [hE]
    refine evictFold_removes fps _ pid hnotseen _ _ hlive hwf.2.2.2 ?_
    show fps * 2 < (((getA A.missingCounts pid).getD 0 + 1 : ℕ) : ℚ)
    rw [hstable]
    exact hcond
  intro hq
  simp only [liveIds] at hq
  rcases setFold_keys A.centers E.previousCenters pid hq with hq | hq
  · exact hout hq
  · exact hnotseen (by simpa using hq)

/-! ## Run-level lemmas -/

theorem runLoop_cons_some (width height : ℕ) (fps : ℚ) (s : TrackState)
    (i : ℕ) (dets : List Det) (rest : List (Option (List Det))) :
    runLoop width height fps s i (some dets :: rest) =
      ((runLoop width height fps (processFrame width height fps s i dets).1
          (i + 1) rest).1,
        (processFrame width height fps s i dets).2.1 ::
          (runLoop width height fps (processFrame width height fps s i dets).1
            (i + 1) rest).2.1,
        (processFrame width height fps s i dets).2.2 ++
          (runLoop width height fps (processFrame width height fps s i dets).1
            (i + 1) rest).2.2) := rfl

theorem runLoop_issued (width height : ℕ) (fps : ℚ) :
    ∀ (frames : List (Option (List Det))) (s : TrackState) (i : ℕ),
      s.nextId ≤ (runLoop width height fps s i frames).1.nextId ∧
      (runLoop width height fps s i frames).2.2 =
        List.range' s.nextId
          ((runLoop width height fps s i frames).1.nextId - s.nextId) := by
  intro frames
  induction frames with
  | nil => intro s i; exact ⟨le_refl _, by simp [runLoop]⟩
  | cons f rest ih =>
      intro s i
      cases f with
      | none => simpa [runLoop] using ih s (i + 1)
      | some dets =>
          rw [runLoop_cons_some]
          obtain ⟨ih1, ih2⟩ := ih (processFrame width height fps s i dets).1
            (i + 1)
          have hp1 := processFrame_nextId_ge width height fps s i dets
          have hp2 := processFrame_issued width height fps s i dets
          refine ⟨le_trans hp1 ih1, ?_⟩
          rw [ih2, hp2]
          have e1 : s.nextId +
              1 * ((processFrame width height fps s i dets).1.nextId - s.nextId) =
              (processFrame width height fps s i dets).1.nextId := by omega
          have e2 : ((runLoop width height fps
                (processFrame width height fps s i dets).1 (i + 1) rest).1.nextId -
                (processFrame width height fps s i dets).1.nextId) +
              ((processFrame width height fps s i dets).1.nextId - s.nextId) =
              (runLoop width height fps
                (processFrame width height fps s i dets).1 (i + 1) rest).1.nextId -
                s.nextId := by omega
          rw [← e2, ← List.range'_append, e1]

theorem runLoop_frames (width height : ℕ) (fps : ℚ) :
    ∀ (frames : List (Option (List Det))) (s : TrackState) (i : ℕ),
      (runLoop width height fps s i frames).2.1.map FrameRec.frame =
        okIndices i frames := by
  intro frames
  induction frames with
  | nil => intro s i; rfl
  | cons f rest ih =>
      intro s i
      cases f with
      | none => simpa [runLoop, okIndices] using ih s (i + 1)
      | some dets =>
          rw [runLoop_cons_some]
          simp [okIndices, processFrame_frameIndex, ih]

theorem runLoop_dead (width height : ℕ) (fps : ℚ) (pid : ℕ) :
    ∀ (frames : List (Option (List Det))) (s : TrackState) (i : ℕ),
      Wf s → pid < s.nextId → pid ∉ liveIds s →
      pid ∉ liveIds (runLoop width height fps s i frames).1 ∧
      (∀ fr ∈ (runLoop width height fps s i frames).2.1,
        pid ∉ fr.objects.map ObjRec.id) ∧
      (∀ q ∈ (runLoop width height fps s i frames).2.2, pid < q) := by
  intro frames
  induction frames with
  | nil =>
      intro s i hwf hlt hdead
      exact ⟨hdead, by simp [runLoop], by simp [runLoop]⟩
  | cons f rest ih =>
      intro s i hwf hlt hdead
      cases f with
      | none => simpa [runLoop] using ih s (i + 1) hwf hlt hdead
      | some dets =>
          rw [runLoop_cons_some]
          have hdw := processFrame_wf width height fps s i dets hwf
          have hdlt : pid < (processFrame width height fps s i dets).1.nextId :=
            lt_of_lt_of_le hlt (processFrame_nextId_ge width height fps s i dets)
          have hdd := processFrame_dead width height fps s i dets pid hwf hlt
            hdead
          obtain ⟨ih1, ih2, ih3⟩ := ih _ (i + 1) hdw hdlt hdd.1
          refine ⟨ih1, ?_, ?_⟩
          · intro fr hfr
            rcases List.mem_cons.1 hfr with rfl | hfr
            · exact hdd.2
            · exact ih2 fr hfr
          · intro q hq
            rcases List.mem_append.1 hq with hq | hq
            · rw [processFrame_issued] at hq
              obtain ⟨j, hj, rfl⟩ := List.mem_range'.1 hq
              omega
            · exact ih3 q hq

/-! ## Dominant-subject helper lemmas -/

theorem pickDominant_le (l : List AggObj) :
    ∀ (best : AggObj), ∀ x ∈ best :: l,
      x.importanceScore ≤ (pickDominant best l).importanceScore := by
  induction l with
  | nil =>
      intro best x hx
      rw [List.mem_singleton] at hx
      subst hx
      exact le_refl _
  | cons o os ih =>
      intro best x hx
      have hstep : pickDominant best (o :: os) =
          pickDominant (if best.importanceScore < o.importanceScore then o
            else best) os := rfl
      rw [hstep]
      set b := if best.importanceScore < o.importanceScore then o else best
        with hb
      have hbest : best.importanceScore ≤ b.importanceScore := by
        rw [hb]
        split_ifs with hh
        · exact le_of_lt hh
        · exact le_refl _
      have ho : o.importanceScore ≤ b.importanceScore := by
        rw [hb]
        split_ifs with hh
        · exact le_refl _
        · exact not_lt.1 hh
      have hbb : b.importanceScore ≤ (pickDominant b os).importanceScore :=
        ih b b (List.mem_cons_self b os)
      rcases List.mem_cons.1 hx with rfl | hx
      · exact le_trans hbest hbb
      · rcases List.mem_cons.1 hx with rfl | hx
        · exact le_trans ho hbb
        · exact ih b x (List.mem_cons_of_mem b hx)

theorem pickDominant_first (l : List AggObj) :
    ∀ (best : AggObj), ∃ pre post,
      best :: l = pre ++ pickDominant best l :: post ∧
      ∀ x ∈ pre, x.importanceScore < (pickDominant best l).importanceScore := by
  induction l with
  | nil => intro best; exact ⟨[], [], rfl, by simp⟩
  | cons o os ih =>
      intro best
      by_cases hlt : best.importanceScore < o.importanceScore
      · have hstep : pickDominant best (o :: os) = pickDominant o os := by
          show pickDominant
            (if best.importanceScore < o.importanceScore then o else best) os =
            pickDominant o os
          rw [if_pos hlt]
        obtain ⟨pre, post, he, hp⟩ := ih o
        refine ⟨best :: pre, post, ?_, ?_⟩
        · rw [hstep, List.cons_append, ← he]
        · intro x hx
          rcases List.mem_cons.1 hx with rfl | hx
          · have := pickDominant_le os o o (List.mem_cons_self o os)
            rw [hstep]
            exact lt_of_lt_of_le hlt this
          · rw [hstep]
            exact hp x hx
      · have hstep : pickDominant best (o :: os) = pickDominant best os := by
          show pickDominant
            (if best.importanceScore < o.importanceScore then o else best) os =
            pickDominant best os
          rw [if_neg hlt]
        obtain ⟨pre, post, he, hp⟩ := ih best
        cases pre with
        | nil =>
            simp only [List.nil_append] at he
            obtain ⟨h1, h2⟩ := List.cons_eq_cons.1 he
            refine ⟨[], o :: post, ?_, by simp⟩
            rw [hstep, List.nil_append, ← h1, ← h2]
        | cons y pre₁ =>
            rw [List.cons_append] at he
            obtain ⟨h1, h2⟩ := List.cons_eq_cons.1 he
            have hbestlt :
                best.importanceScore < (pickDominant best os).importanceScore := by
              have := hp y (List.mem_cons_self y pre₁)
              rw [← h1] at this
              exact this
            refine ⟨best :: o :: pre₁, post, ?_, ?_⟩
            · rw [hstep, List.cons_append, List.cons_append, ← h2]
            · intro x hx
              rcases List.mem_cons.1 hx with rfl | hx
              · rw [hstep]
                exact hbestlt
              · rcases List.mem_cons.1 hx with rfl | hx
                · rw [hstep]
                  exact lt_of_le_of_lt (not_lt.1 hlt) hbestlt
                · rw [hstep]
                  exact hp x (List.mem_cons_of_mem y hx)

/-! ## Claim theorems -/

/-- C4: the importance score of an object record equals the spec formula
`0.45·min(area_percentage/100, 1) + 0.35·min(motion_magnitude/30, 1) +
0.20·confidence`, and for any confidence in [0,1] and nonnegative area
percentage and motion magnitude it lies in [0,1]. -/
theorem C4_importance_formula_and_bounds (a m c : ℚ) (ha : 0 ≤ a)
    (hm : 0 ≤ m) (hc0 : 0 ≤ c) (hc1 : c ≤ 1) :
    calculate_importance a m c = importanceSpec a m c ∧
    0 ≤ calculate_importance a m c ∧ calculate_importance a m c ≤ 1 := by
  have hA0 : (0 : ℚ) ≤ min (a / 100) 1 := le_min (by positivity) zero_le_one
  have hM0 : (0 : ℚ) ≤ min (m / 30) 1 := le_min (by positivity) zero_le_one
  have hA1 : min (a / 100) 1 ≤ 1 := min_le_right _ _
  have hM1 : min (m / 30) 1 ≤ 1 := min_le_right _ _
  have he : calculate_importance a m c = importanceSpec a m c := rfl
  refine ⟨he, ?_, ?_⟩ <;> rw [he, importanceSpec] <;> linarith

/-- Witness for C4: area 50 %, motion 15 px/frame, confidence 1/2 gives
score 1/2, inside the bounds. -/
theorem C4_importance_formula_and_bounds_witness :
    calculate_importance 50 15 (1 / 2) = 1 / 2 ∧
    (0 ≤ calculate_importance 50 15 (1 / 2) ∧
      calculate_importance 50 15 (1 / 2) ≤ 1) :=
  ⟨by norm_num [calculate_importance],
    (C4_importance_formula_and_bounds 50 15 (1 / 2) (by norm_num)
      (by norm_num) (by norm_num) (by norm_num)).2⟩

/-- C10: the importance score is monotone nondecreasing in the area
percentage, the motion magnitude and the confidence (jointly, hence in
each input separately with the others fixed). -/
theorem C10_importance_monotone (a a' m m' c c' : ℚ) (hA : a ≤ a')
    (hM : m ≤ m') (hC : c ≤ c') :
    calculate_importance a m c ≤ calculate_importance a' m' c' := by
  have e : ∀ x y z : ℚ, calculate_importance x y z =
      45 / 100 * min (x / 100) 1 + 35 / 100 * min (y / 30) 1 +
        20 / 100 * z := fun _ _ _ => rfl
  rw [e, e]
  have h1 : min (a / 100) 1 ≤ min (a' / 100) 1 :=
    min_le_min (by linarith) le_rfl
  have h2 : min (m / 30) 1 ≤ min (m' / 30) 1 :=
    min_le_min (by linarith) le_rfl
  linarith

/-- Witness for C10: increasing each input increases the score. -/
theorem C10_importance_monotone_witness :
    calculate_importance 10 5 (1 / 4) ≤ calculate_importance 20 6 (1 / 2) :=
  C10_importance_monotone 10 20 5 6 (1 / 4) (1 / 2) (by norm_num)
    (by norm_num) (by norm_num)

/-- C5: the frame event score is 0 for a frame with no objects, and
otherwise equals min(1, average importance + motion factor + 0.5 if
scene change), with motion factor the summed motion magnitude divided by
object count times (sqrt(width²+height²)+1). -/
theorem C5_frame_event_score (width height : ℕ) (sc : Bool) :
    frame_event_score [] width height sc = 0 ∧
    ∀ (o : AggObj) (os : List AggObj),
      frame_event_score (o :: os) width height sc =
        min 1 (((o :: os).map AggObj.importanceScore).sum /
            ((o :: os).length : ℝ) +
          ((o :: os).map AggObj.motionMagnitude).sum /
            (((o :: os).length : ℝ) *
              (Real.sqrt ((width : ℝ) ^ 2 + (height : ℝ) ^ 2) + 1)) +
          (if sc then 1 / 2 else 0)) := by
  refine ⟨rfl, fun o os => ?_⟩
  simp [frame_event_score]

/-- C8: with no objects the dominant subject id is none, its importance
0 and the focus center (width/2, height/2); with objects, the dominant
subject is the first object record attaining the maximum importance
score, and the frame focus center is its bounding-box center. -/
theorem C8_dominant_subject (width height : ℕ) :
    (setDominant [] width height =
      ⟨none, 0, ((width : ℝ) / 2, (height : ℝ) / 2)⟩) ∧
    ∀ (o : AggObj) (os : List AggObj),
      (∃ pre post, o :: os = pre ++ pickDominant o os :: post ∧
        ∀ x ∈ pre, x.importanceScore < (pickDominant o os).importanceScore) ∧
      (∀ x ∈ o :: os,
        x.importanceScore ≤ (pickDominant o os).importanceScore) ∧
      setDominant (o :: os) width height =
        ⟨some (pickDominant o os).id, (pickDominant o os).importanceScore,
          ((pickDominant o os).cx, (pickDominant o os).cy)⟩ :=
  ⟨rfl, fun o os => ⟨pickDominant_first os o, pickDominant_le os o, rfl⟩⟩

/-- Witness for C8: of two objects with scores 1/2 and 3/4 the second is
dominant; its id, score and center are emitted. -/
theorem C8_dominant_subject_witness :
    setDominant [⟨1, 1 / 2, 0, 5, 5⟩, ⟨2, 3 / 4, 0, 7, 7⟩] 100 50 =
      ⟨some 2, 3 / 4, (7, 7)⟩ := by
  have h := (C8_dominant_subject 100 50).2 ⟨1, 1 / 2, 0, 5, 5⟩
    [⟨2, 3 / 4, 0, 7, 7⟩]
  rw [h.2.2]
  norm_num [pickDominant]

/-- C2, evaluated at the failing input (code bug): with a 100×100 frame
at fps 30, one detection (box 40,40,60,60) creates track 1 in frame 0,
frame 1 has no detections (missing becomes 1), and in frame 2 the same
detection re-matches track 1 — yet `missing_counts[1]` stays 1, where
the claim (and the sibling script detect_video_full_ai_json.py, lines
165-174) says a matched track has missing = 0. -/
theorem C2_missing_not_reset_on_rematch :
    getA ((runLoop 100 100 30 initState 0
      [some [⟨0, 9 / 10, 40, 40, 60, 60⟩], some [],
       some [⟨0, 9 / 10, 40, 40, 60, 60⟩]]).1).missingCounts 1 = some 1 ∧
    ((runLoop 100 100 30 initState 0
      [some [⟨0, 9 / 10, 40, 40, 60, 60⟩], some [],
       some [⟨0, 9 / 10, 40, 40, 60, 60⟩]]).2.1).map
        (fun fr => (fr.frame, fr.objects.map ObjRec.id)) =
      [(0, [1]), (1, []), (2, [1])] := by
  norm_num [runLoop, processFrame, detStep, evictStep, matchDetection,
    findNearest, nearStep, dist2, MATCH_DISTANCE_THRESHOLD, Det.cx, Det.cy,
    setA, getA, eraseA, initState]

/-! ## Audio-video alignment -/

theorem pyInt_eq_floor (q : ℚ) (hq : 0 ≤ q) : pyInt q = ⌊q⌋ := by
  rw [pyInt, Rat.floor_def]
  exact Int.tdiv_eq_ediv (Rat.num_nonneg.2 hq) (Int.natCast_nonneg _)

/-- C7: with fps > 0 the aligner returns the audio sample at index
floor((video_frame_index / fps) × (1 / 0.04)); whenever that index is
out of the audio sequence's bounds — including an empty sequence — it
returns the no-speech default rather than failing. -/
theorem C7_audio_alignment (vadList : List VadEntry) (fps : ℚ) (idx : ℕ)
    (hfps : 0 < fps) :
    vad_for_frame vadList fps idx =
      if h : (⌊((idx : ℚ) / fps) * (1 / (4 / 100))⌋).toNat < vadList.length
      then ⟨(vadList.get ⟨_, h⟩).isTalking, (vadList.get ⟨_, h⟩).speechProb⟩
      else noSpeech := by
  have hq : 0 ≤ ((idx : ℚ) / fps) * (1 / (4 / 100)) := by positivity
  have hpy : pyInt (((idx : ℚ) / fps) * (1 / (4 / 100))) =
      ⌊((idx : ℚ) / fps) * (1 / (4 / 100))⌋ := pyInt_eq_floor _ hq
  have h0 : (0 : ℤ) ≤ ⌊((idx : ℚ) / fps) * (1 / (4 / 100))⌋ :=
    Int.floor_nonneg.2 hq
  by_cases hE : vadList.isEmpty
  · rw [List.isEmpty_iff] at hE
    subst hE
    simp [vad_for_frame, noSpeech]
  · have hlen : vadList.length ≠ 0 := by
      simpa [← List.isEmpty_iff_length_eq_zero] using hE
    simp only [vad_for_frame, hE, Bool.false_eq_true, if_false, hpy]
    by_cases hlt :
        (⌊((idx : ℚ) / fps) * (1 / (4 / 100))⌋).toNat < vadList.length
    · have hltz : ⌊((idx : ℚ) / fps) * (1 / (4 / 100))⌋ <
          (vadList.length : ℤ) := (Int.toNat_lt' hlen).1 hlt
      rw [if_neg (by push_neg; exact ⟨h0, hltz⟩), dif_pos hlt,
        List.get?_eq_get hlt]
    · have hge : (vadList.length : ℤ) ≤
          ⌊((idx : ℚ) / fps) * (1 / (4 / 100))⌋ := by
        by_contra hc
        push_neg at hc
        exact hlt ((Int.toNat_lt' hlen).2 hc)
      rw [if_pos (Or.inr hge), dif_neg hlt]

/-- Witness for C7 (spec scenario D): fps 25, video frame 50 maps to
audio index 50; with only 40 audio samples the no-speech default is
returned. -/
theorem C7_audio_alignment_witness :
    (⌊((50 : ℚ) / 25) * (1 / (4 / 100))⌋).toNat = 50 ∧
    vad_for_frame (List.replicate 40 ⟨1, 1, true, 1⟩) 25 50 = noSpeech := by
  have h50 : (⌊(((50 : ℕ) : ℚ) / 25) * (1 / (4 / 100))⌋).toNat = 50 := by
    have hv : (((50 : ℕ) : ℚ) / 25) * (1 / (4 / 100)) = ((50 : ℕ) : ℚ) := by
      norm_num
    rw [hv, Int.floor_natCast]
    rfl
  constructor
  · have hv : ((50 : ℚ) / 25) * (1 / (4 / 100)) = ((50 : ℕ) : ℚ) := by
      norm_num
    rw [hv, Int.floor_natCast]
    rfl
  · rw [C7_audio_alignment (List.replicate 40 ⟨1, 1, true, 1⟩) 25 50
      (by norm_num)]
    rw [dif_neg]
    rw [h50, List.length_replicate]
    norm_num

/-- C9 counterexample: frame 0's inference fails (`none`), frame 1
succeeds with zero detections.  The run emits exactly one record, for
frame 1; contrary to the claim, no frame record at all is emitted for
the failed frame 0 (the `except: frame_index += 1; continue` path skips
the frame entirely). -/
theorem C9_failed_frame_has_no_record :
    ((runLoop 100 100 30 initState 0 [none, some []]).2.1).map
        FrameRec.frame = [1] ∧
    ¬ ∃ fr ∈ (runLoop 100 100 30 initState 0 [none, some []]).2.1,
        fr.frame = 0 := by
  have hrec : (runLoop 100 100 30 initState 0 [none, some []]).2.1 =
      [⟨1, []⟩] := by
    norm_num [runLoop, processFrame, detStep, evictStep, initState]
  rw [hrec]
  constructor
  · rfl
  · rintro ⟨fr, hfr, hframe⟩
    rw [List.mem_singleton] at hfr
    subst hfr
    exact absurd hframe (by norm_num)

/-- C9 amended: a frame whose detector inference fails is skipped
entirely — no frame record is emitted for it — and processing continues
with the following frames: the emitted records are exactly those of the
successful frames, in order, carrying their original frame indices. -/
theorem C9_amended_failed_frames_skipped (width height : ℕ) (fps : ℚ)
    (s : TrackState) (i : ℕ) (frames : List (Option (List Det))) :
    ((runLoop width height fps s i frames).2.1).map FrameRec.frame =
      okIndices i frames :=
  runLoop_frames width height fps frames s i

/-- C6: over any run from the initial state, the track ids handed out at
the allocation site are strictly increasing in allocation order, no id
is ever issued twice, and every issued id is a positive integer. -/
theorem C6_id_monotonicity (width height : ℕ) (fps : ℚ)
    (frames : List (Option (List Det))) :
    ((runLoop width height fps initState 0 frames).2.2).Pairwise (· < ·) ∧
    ((runLoop width height fps initState 0 frames).2.2).Nodup ∧
    ∀ q ∈ (runLoop width height fps initState 0 frames).2.2, 0 < q := by
  obtain ⟨h1, h2⟩ := runLoop_issued width height fps frames initState 0
  rw [h2]
  refine ⟨List.pairwise_lt_range' _ _, List.nodup_range' _ _, ?_⟩
  intro q hq
  obtain ⟨j, hj, rfl⟩ := List.mem_range'.1 hq
  have hinit : initState.nextId = 1 := rfl
  omega

/-- Witness for C6: a two-frame run allocating id 1 (first detection,
frame 0) and id 2 (second, far-away detection in frame 1). -/
theorem C6_id_monotonicity_witness :
    (runLoop 100 100 30 initState 0
      [some [⟨0, 9 / 10, 40, 40, 60, 60⟩],
       some [⟨0, 9 / 10, 40, 40, 60, 60⟩, ⟨0, 1 / 2, 0, 0, 10, 10⟩]]).2.2 =
      [1, 2] ∧
    ((runLoop 100 100 30 initState 0
      [some [⟨0, 9 / 10, 40, 40, 60, 60⟩],
       some [⟨0, 9 / 10, 40, 40, 60, 60⟩,
         ⟨0, 1 / 2, 0, 0, 10, 10⟩]]).2.2).Pairwise (· < ·) :=
  ⟨by norm_num [runLoop, processFrame, detStep, evictStep, matchDetection,
      findNearest, nearStep, dist2, MATCH_DISTANCE_THRESHOLD, Det.cx, Det.cy,
      setA, getA, eraseA, initState],
    (C6_id_monotonicity 100 100 30 _).1⟩

/-- C1: matching is greedy and single-pass.  The ids emitted for a frame
are exactly `assignIds`: every detection, independently of the others,
is resolved by `matchDetection` against the frame-start registry
snapshot on its center ((x1+x2)/2, (y1+y2)/2), allocations taking
consecutive fresh ids from `next_id`.  `matchDetection` returns no track
(a new track is allocated) iff no live track exists or the minimum
distance to every live center exceeds MATCH_DISTANCE_THRESHOLD =
max(width, height)·0.12, and a matched detection claims a nearest live
track within the threshold (distances compared squared — an exact
rendering of the source's sqrt-based comparisons). -/
theorem C1_greedy_nearest_matching (width height : ℕ) (fps : ℚ)
    (s : TrackState) (i : ℕ) (dets : List Det) :
    ((processFrame width height fps s i dets).2.1.objects.map ObjRec.id =
      assignIds s.previousCenters (MATCH_DISTANCE_THRESHOLD width height)
        s.nextId dets) ∧
    (∀ d : Det,
      matchDetection s.previousCenters
          (MATCH_DISTANCE_THRESHOLD width height) (d.cx, d.cy) = none ↔
        s.previousCenters = [] ∨
          ∀ p ∈ s.previousCenters,
            MATCH_DISTANCE_THRESHOLD width height ^ 2 <
              dist2 ((d.x1 + d.x2) / 2, (d.y1 + d.y2) / 2) (p.2.1, p.2.2)) ∧
    (∀ (d : Det) (pid : ℕ),
      matchDetection s.previousCenters
          (MATCH_DISTANCE_THRESHOLD width height) (d.cx, d.cy) = some pid →
        ∃ x y, (pid, x, y) ∈ s.previousCenters ∧
          dist2 ((d.x1 + d.x2) / 2, (d.y1 + d.y2) / 2) (x, y) ≤
            MATCH_DISTANCE_THRESHOLD width height ^ 2 ∧
          ∀ p ∈ s.previousCenters,
            dist2 ((d.x1 + d.x2) / 2, (d.y1 + d.y2) / 2) (x, y) ≤
              dist2 ((d.x1 + d.x2) / 2, (d.y1 + d.y2) / 2) (p.2.1, p.2.2)) := by
  refine ⟨processFrame_objIds width height fps s i dets, ?_, ?_⟩
  · intro d
    exact matchDetection_none_iff s.previousCenters
      (MATCH_DISTANCE_THRESHOLD width height) (d.cx, d.cy)
  · intro d pid h
    exact matchDetection_some s.previousCenters
      (MATCH_DISTANCE_THRESHOLD width height) (d.cx, d.cy) pid h

/-- Witness for C1: registry {7 ↦ (50,50)}, next id 9, 100×100 frame
(threshold 12): a detection centred at (50,50) claims track 7, a
detection centred at (5,5) allocates the fresh id 9. -/
theorem C1_greedy_nearest_matching_witness :
    (processFrame 100 100 30 ⟨[(7, 50, 50)], [(7, 0)], [(7, 3)], 9⟩ 4
      [⟨0, 9 / 10, 40, 40, 60, 60⟩,
       ⟨0, 1 / 2, 0, 0, 10, 10⟩]).2.1.objects.map ObjRec.id = [7, 9] := by
  rw [(C1_greedy_nearest_matching 100 100 30
    ⟨[(7, 50, 50)], [(7, 0)], [(7, 3)], 9⟩ 4
    [⟨0, 9 / 10, 40, 40, 60, 60⟩, ⟨0, 1 / 2, 0, 0, 10, 10⟩]).1]
  norm_num [assignIds, matchDetection, findNearest, nearStep, dist2,
    MATCH_DISTANCE_THRESHOLD, Det.cx, Det.cy]

/-- C3: a live track left unmatched this frame whose missing counter
(after this frame's increment) exceeds max(2, round(fps·2)) is removed
from the registry at the end of this frame's update, every id allocated
during this frame is strictly greater than it, and for every
continuation of the run the track never reappears — not in the registry,
not in any emitted frame record — while every later-allocated id is
strictly greater.  (The code evicts when the counter exceeds fps·2;
max(2, round(fps·2)) + 1 > fps·2 always, so a counter exceeding the
claimed bound also exceeds the code's bound.) -/
theorem C3_eviction_permanent (width height : ℕ) (fps : ℚ) (s : TrackState)
    (i : ℕ) (dets : List Det) (pid : ℕ) (hwf : Wf s)
    (hlive : pid ∈ liveIds s)
    (hunmatched : pid ∉
      (processFrame width height fps s i dets).2.1.objects.map ObjRec.id)
    (hthresh : (max 2 (round (fps * 2)) : ℤ) <
      (((getA s.missingCounts pid).getD 0 + 1 : ℕ) : ℤ)) :
    pid ∉ liveIds (processFrame width height fps s i dets).1 ∧
    (∀ q ∈ (processFrame width height fps s i dets).2.2, pid < q) ∧
    ∀ rest : List (Option (List Det)),
      pid ∉ liveIds (runLoop width height fps
        (processFrame width height fps s i dets).1 (i + 1) rest).1 ∧
      (∀ fr ∈ (runLoop width height fps
          (processFrame width height fps s i dets).1 (i + 1) rest).2.1,
        pid ∉ fr.objects.map ObjRec.id) ∧
      (∀ q ∈ (runLoop width height fps
          (processFrame width height fps s i dets).1 (i + 1) rest).2.2,
        pid < q) := by
  have hpidlt : pid < s.nextId := keysA_lt _ _ hwf.1 _ hlive
  have hcond : fps * 2 <
      (((getA s.missingCounts pid).getD 0 + 1 : ℕ) : ℚ) := by
    have h1 : fps * 2 - (round (fps * 2) : ℚ) ≤ 1 / 2 :=
      (abs_le.1 (abs_sub_round (fps * 2))).2
    have h3 : ((max 2 (round (fps * 2)) : ℤ) : ℚ) + 1 ≤
        (((getA s.missingCounts pid).getD 0 + 1 : ℕ) : ℚ) := by
      exact_mod_cast Int.add_one_le_of_lt hthresh
    have h4 : ((round (fps * 2) : ℤ) : ℚ) ≤
        ((max 2 (round (fps * 2)) : ℤ) : ℚ) := by
      exact_mod_cast le_max_right (2 : ℤ) (round (fps * 2))
    linarith
  have hevict := processFrame_evicts width height fps s i dets pid hwf hlive
    hunmatched hcond
  refine ⟨hevict, ?_, ?_⟩
  · intro q hq
    rw [processFrame_issued] at hq
    obtain ⟨j, hj, rfl⟩ := List.mem_range'.1 hq
    omega
  · intro rest
    exact runLoop_dead width height fps pid rest
      (processFrame width height fps s i dets).1 (i + 1)
      (processFrame_wf width height fps s i dets hwf)
      (lt_of_lt_of_le hpidlt (processFrame_nextId_ge width height fps s i dets))
      hevict

/-- Witness for C3: fps 1, registry {1 ↦ (50,50)} with missing count 2
and next id 2; a frame with no detections pushes the counter to 3 >
max(2, round(2)) = 2, so track 1 is evicted, and the id allocated for a
detection at the same location in the following frame is 2 > 1. -/
theorem C3_eviction_permanent_witness :
    1 ∉ liveIds (processFrame 100 100 1
      ⟨[(1, 50, 50)], [(1, 2)], [(1, 3)], 2⟩ 5 []).1 ∧
    ∀ q ∈ (runLoop 100 100 1 (processFrame 100 100 1
        ⟨[(1, 50, 50)], [(1, 2)], [(1, 3)], 2⟩ 5 []).1 6
        [some [⟨0, 9 / 10, 40, 40, 60, 60⟩]]).2.2, 1 < q := by
  have h := C3_eviction_permanent 100 100 1
    ⟨[(1, 50, 50)], [(1, 2)], [(1, 3)], 2⟩ 5 [] 1
    (by refine ⟨?_, ?_, ?_, ?_⟩ <;> norm_num [liveIds, keysA])
    (by norm_num [liveIds, keysA])
    (by simp [processFrame])
    (by
      have h2 : (1 : ℚ) * 2 = ((2 : ℤ) : ℚ) := by norm_num
      rw [h2, round_intCast]
      norm_num [getA])
  exact ⟨h.1, (h.2.2 [some [⟨0, 9 / 10, 40, 40, 60, 60⟩]]).2.2⟩

end Croply
